import Mathlib

/-!
Shallow embedding of the grab content-addressed publishing engine and proofs
about it. The embedding covers crypto/merkle.rs, crypto/signing.rs,
storage/chunks.rs, storage/bundles.rs, publisher/bundle.rs, the request
handler of network/node.rs, and the health summary of network/health.rs.

Modelling conventions:
- Byte strings ([u8], Rust String, [u8; 32]) are lists of naturals holding the
  byte (or code point) values; all concrete constants used below are ASCII, for
  which the two coincide.
- u64 counters that a claim's statement depends on are reduced modulo 2^64
  (the release-mode wrapping semantics of Rust integer addition).
- External crates are parameters of the definitions that call them: blake3 is
  a parameter named hb, ed25519-dalek signing and verification are dalekSign
  and dalekVerify, flate2 gzip is gzipC, mime_guess is mimeOf. Everything the
  repository itself computes around those calls is embedded from the source.
- Imperative loops over growing vectors become fuelled structural recursions;
  a congruence lemma shows the fuel is irrelevant once it covers the loop
  bound, recovering the loop's recurrence exactly.
-/

namespace Grab

abbrev Bytes := List Nat
abbrev Hash := Bytes
abbrev SiteId := Bytes

/-- Wrap-around bound of a 64-bit counter. -/
def U64 : Nat := 2 ^ 64

def zero32 : Hash := List.replicate 32 0
def one32 : Hash := List.replicate 32 1

/-- Byte values of an ASCII string constant. -/
def strBytes (s : String) : Bytes := s.toList.map Char.toNat

/-- Lookup in an association list keyed by byte strings; models reads of a
sled tree (or HashMap) keyed by the raw key bytes. -/
def lookupA {β : Type} (k : Bytes) : List (Bytes × β) → Option β
  | [] => none
  | (a, b) :: rest => if a = k then some b else lookupA k rest

/-- Insert into an association list; models a sled insert (last write wins,
lookupA sees the newest binding first). -/
def insertA {β : Type} (k : Bytes) (v : β) (l : List (Bytes × β)) : List (Bytes × β) :=
  (k, v) :: l

/-- Byte-lexicographic comparison of byte strings, the order of Rust's
`String::cmp` (UTF-8 byte order; a strict prefix sorts first). -/
def lexLe : List Nat → List Nat → Bool
  | [], _ => true
  | _ :: _, [] => false
  | a :: as, b :: bs => if a < b then true else if b < a then false else lexLe as bs

/-- Insertion step of a stable sort. -/
def insertSorted {α : Type} (le : α → α → Bool) (x : α) : List α → List α
  | [] => [x]
  | y :: ys => if le x y then x :: y :: ys else y :: insertSorted le x ys

/-- Stable sort by a boolean comparator; for a total transitive comparator
this produces the unique stable sorted permutation, hence the same list as
Rust's stable `sort_by`. -/
def sortBy {α : Type} (le : α → α → Bool) : List α → List α
  | [] => []
  | x :: xs => insertSorted le x (sortBy le xs)

/-- Does the byte string start with the given needle (str::starts_with)? -/
def startsWithB : Bytes → Bytes → Bool
  | _, [] => true
  | [], _ :: _ => false
  | a :: as, b :: bs => (a == b) && startsWithB as bs

/-- Does the byte string contain the needle as a contiguous segment
(str::contains)? -/
def hasSeg : Bytes → Bytes → Bool
  | [], needle => needle.isEmpty
  | a :: t, needle => startsWithB (a :: t) needle || hasSeg t needle

/-! ## crypto/merkle.rs -/

/-- hash_pair: BLAKE3 of the 64-byte concatenation of two nodes. -/
def hashPair (hb : Bytes → Bytes) (l r : Hash) : Hash := hb (l ++ r)

/-- One bottom-up level of MerkleTree::new's while loop: hash adjacent pairs.
The loop indexes pairs `(i, i+1)` stepping by two over the current level; the
repository only ever runs it on power-of-two (hence even) level sizes. -/
def pairUp (hb : Bytes → Bytes) : List Hash → List Hash
  | x :: y :: rest => hashPair hb x y :: pairUp hb rest
  | _ => []

/-- Fuelled core of usize::next_power_of_two (smallest power of two that is
at least n; 1 for n ≤ 1). -/
def nextPow2F : Nat → Nat → Nat
  | 0, _ => 1
  | fuel + 1, n => if n ≤ 1 then 1 else 2 * nextPow2F fuel ((n + 1) / 2)

/-- usize::next_power_of_two. -/
def nextPow2 (n : Nat) : Nat := nextPow2F n n

/-- Fuelled rendering of MerkleTree::new's node-building while loop: the flat
nodes vector is the current level followed by the nodes built from the paired
level above it, until a level of size one remains. -/
def buildNodesF (hb : Bytes → Bytes) : Nat → List Hash → List Hash
  | 0, cur => cur
  | fuel + 1, cur => if cur.length ≤ 1 then cur else cur ++ buildNodesF hb fuel (pairUp hb cur)

/-- The nodes vector of MerkleTree::new for a padded leaf level. -/
def buildNodes (hb : Bytes → Bytes) (cur : List Hash) : List Hash :=
  buildNodesF hb cur.length cur

structure MerkleTree where
  leaves : List Hash
  nodes : List Hash
deriving DecidableEq

/-- MerkleTree::new: empty input yields the single zero node; otherwise the
leaves are padded with zero hashes to the next power of two and the node
vector is built bottom-up. -/
def MerkleTree.new (hb : Bytes → Bytes) (leaves : List Hash) : MerkleTree :=
  if leaves.isEmpty then ⟨[], [zero32]⟩
  else ⟨leaves, buildNodes hb (leaves ++ List.replicate (nextPow2 leaves.length - leaves.length) zero32)⟩

/-- Last element with a default (Vec::last().unwrap_or(&zero)). -/
def lastD : List Hash → Hash → Hash
  | [], d => d
  | [x], _ => x
  | _ :: y :: t, d => lastD (y :: t) d

/-- MerkleTree::root. -/
def MerkleTree.root (t : MerkleTree) : Hash := lastD t.nodes zero32

structure MerkleProof where
  leaf_index : Nat
  leaf_hash : Hash
  siblings : List Hash
  root : Hash
deriving DecidableEq

/-- Fuelled rendering of MerkleTree::get_proof's sibling-collecting loop over
the flat nodes vector: at each level (level_start, level_size) the sibling of
the running index is pushed when its flat index is inside the vector, the
index halves, and the walk moves to the next level. -/
def getProofLoop : Nat → List Hash → Nat → Nat → Nat → List Hash
  | 0, _, _, _, _ => []
  | fuel + 1, nodes, idx, start, size =>
    if size ≤ 1 then []
    else
      let sib := if idx % 2 = 0 then idx + 1 else idx - 1
      let rest := getProofLoop fuel nodes (idx / 2) (start + size) (size / 2)
      if start + sib < nodes.length then nodes.getD (start + sib) zero32 :: rest else rest

/-- MerkleTree::get_proof: None when the index is out of range, otherwise the
leaf hash, the collected siblings, and the tree root. -/
def MerkleTree.get_proof (t : MerkleTree) (index : Nat) : Option MerkleProof :=
  if index < t.leaves.length then
    some ⟨index, t.leaves.getD index zero32,
      getProofLoop (nextPow2 t.leaves.length) t.nodes index 0 (nextPow2 t.leaves.length), t.root⟩
  else none

/-- One step of MerkleTree::verify_proof's fold: combine with the sibling on
the side selected by the low bit of the running index, then halve it. -/
def proofStep (hb : Bytes → Bytes) (acc : Hash × Nat) (sib : Hash) : Hash × Nat :=
  (if acc.2 % 2 = 0 then hashPair hb acc.1 sib else hashPair hb sib acc.1, acc.2 / 2)

/-- MerkleTree::verify_proof. -/
def MerkleTree.verify_proof (hb : Bytes → Bytes) (p : MerkleProof) : Bool :=
  decide ((p.siblings.foldl (proofStep hb) (p.leaf_hash, p.leaf_index)).1 = p.root)

/-- The enumerated zip scan of MerkleTree::diff: indices (counted from k)
where the two leaf lists disagree, over the common prefix. -/
def diffIndices : List Hash → List Hash → Nat → List Nat
  | x :: xs, y :: ys, i =>
    if x = y then diffIndices xs ys (i + 1) else i :: diffIndices xs ys (i + 1)
  | _, _, _ => []

/-- MerkleTree::diff: differing indices over the zipped prefix, then the
trailing indices — but only when self has fewer leaves than other. -/
def MerkleTree.diff (a b : MerkleTree) : List Nat :=
  diffIndices a.leaves b.leaves 0 ++
    (if a.leaves.length < b.leaves.length then
      List.range' a.leaves.length (b.leaves.length - a.leaves.length) else [])

/-! ## crypto/signing.rs -/

/-- Little-endian bytes of a u64 (u64::to_le_bytes). -/
def u64le (n : Nat) : Bytes := (List.range 8).map (fun i => n / 256 ^ i % 256)

/-- The canonical bundle signing message: site_id, revision as little-endian
u64, root hash. -/
def bundleMessage (site_id : SiteId) (revision : Nat) (root_hash : Hash) : Bytes :=
  site_id ++ u64le revision ++ root_hash

/-- signing::sign — delegates to ed25519-dalek, here the parameter. -/
def sign (dalekSign : Bytes → Bytes → Bytes) (message private_key : Bytes) : Bytes :=
  dalekSign message private_key

/-- signing::verify: a signature of length other than 64 is rejected before
the dalek call; dalekVerify also covers the public-key decoding failure path
of VerifyingKey::from_bytes (both live in the external crate). -/
def verify (dalekVerify : Bytes → Bytes → Bytes → Bool)
    (message signature public_key : Bytes) : Bool :=
  if signature.length ≠ 64 then false
  else dalekVerify message signature public_key

/-- signing::sign_bundle. -/
def sign_bundle (dalekSign : Bytes → Bytes → Bytes)
    (site_id : SiteId) (revision : Nat) (root_hash : Hash) (private_key : Bytes) : Bytes :=
  sign dalekSign (bundleMessage site_id revision root_hash) private_key

/-- signing::verify_bundle. -/
def verify_bundle (dalekVerify : Bytes → Bytes → Bytes → Bool)
    (site_id : SiteId) (revision : Nat) (root_hash : Hash)
    (signature public_key : Bytes) : Bool :=
  verify dalekVerify (bundleMessage site_id revision root_hash) signature public_key

/-! ## storage/chunks.rs -/

/-- ChunkStore state: the sled db and the lookaside cache as association
lists, the configured cache bound, and the two atomic counters. -/
structure ChunkStore where
  db : List (Bytes × Bytes)
  cache : List (Bytes × Bytes)
  cache_max_size : Nat
  chunk_count : Nat
  total_size : Nat
deriving DecidableEq

/-- ChunkStore::cache_put: when the cache is full, half of the current
entries are dropped (the iteration order of the HashMap is modelled as the
list order — the source accepts any deterministic subset), then insert. -/
def ChunkStore.cachePut (s : ChunkStore) (chunk_id data : Bytes) : ChunkStore :=
  let kept := if s.cache.length ≥ s.cache_max_size then s.cache.drop (s.cache_max_size / 2)
    else s.cache
  { s with cache := insertA chunk_id data kept }

/-- ChunkStore::put: content-address by BLAKE3, return early when the db
already holds the id, otherwise write, bump both counters (u64 wrapping), and
cache. The sled error paths are environmental and not modelled. -/
def ChunkStore.put (s : ChunkStore) (hb : Bytes → Bytes) (data : Bytes) : Bytes × ChunkStore :=
  let chunk_id := hb data
  if (lookupA chunk_id s.db).isSome then (chunk_id, s)
  else
    let s1 := { s with db := insertA chunk_id data s.db,
                       chunk_count := (s.chunk_count + 1) % U64,
                       total_size := (s.total_size + data.length) % U64 }
    (chunk_id, s1.cachePut chunk_id data)

/-- ChunkStore::get: cache first, then the db, caching a db hit. -/
def ChunkStore.get (s : ChunkStore) (chunk_id : Bytes) : Option Bytes × ChunkStore :=
  match lookupA chunk_id s.cache with
  | some data => (some data, s)
  | none =>
    match lookupA chunk_id s.db with
    | some data => (some data, s.cachePut chunk_id data)
    | none => (none, s)

/-! ## types.rs -/

inductive Compression where
  | none
  | gzip
  | brotli
deriving DecidableEq

structure FileEntry where
  path : Bytes
  hash : Hash
  size : Nat
  mime_type : Bytes
  chunks : List Hash
  compression : Option Compression
deriving DecidableEq

structure RedirectRule where
  source : Bytes
  destination : Bytes
  status : Nat
deriving DecidableEq

structure RewriteRule where
  source : Bytes
  destination : Bytes
deriving DecidableEq

structure HeaderRule where
  source : Bytes
  headers : List (Bytes × Bytes)
deriving DecidableEq

structure RouteConfig where
  clean_urls : Bool
  fallback : Option Bytes
  redirects : List RedirectRule
  rewrites : List RewriteRule
deriving DecidableEq

structure SiteManifest where
  files : List FileEntry
  entry : Bytes
  routes : Option RouteConfig
  headers : Option (List HeaderRule)
deriving DecidableEq

structure WebBundle where
  site_id : SiteId
  name : Bytes
  revision : Nat
  root_hash : Hash
  publisher : Bytes
  signature : Bytes
  manifest : SiteManifest
  created_at : Nat
deriving DecidableEq

structure PublishedSite where
  site_id : SiteId
  name : Bytes
  revision : Nat
  root_path : Bytes
  created_at : Nat
  updated_at : Nat
deriving DecidableEq

structure HostedSite where
  site_id : SiteId
  name : Bytes
  revision : Nat
  hosted_at : Nat
  last_accessed : Nat
  access_count : Nat
deriving DecidableEq

/-! ## storage/bundles.rs -/

structure BundleStore where
  published : List (Bytes × PublishedSite)
  hosted : List (Bytes × HostedSite)
  bundles : List (Bytes × WebBundle)
  manifests : List (Bytes × SiteManifest)
  names : List (Bytes × SiteId)
deriving DecidableEq

/-- BundleStore::save_bundle: insert the bundle and, separately, its
manifest, both keyed by site id (the flush and the debug re-read change no
state). -/
def BundleStore.save_bundle (s : BundleStore) (b : WebBundle) : BundleStore :=
  { s with bundles := insertA b.site_id b s.bundles,
           manifests := insertA b.site_id b.manifest s.manifests }

/-- BundleStore::save_published_site: insert the record and index it by
name. -/
def BundleStore.save_published_site (s : BundleStore) (site : PublishedSite) : BundleStore :=
  { s with published := insertA site.site_id site s.published,
           names := insertA site.name site.site_id s.names }

/-- BundleStore::get_published_site, at the call site of Publisher::publish:
the publisher passes the base58 encoding of the 32-byte site id, which the
store decodes back to the same 32 bytes (bs58 round-trips) and looks up in
the published tree; the name-index fallback only runs when that lookup
misses and is modelled away. -/
def BundleStore.get_published_site (s : BundleStore) (site_id : SiteId) : Option PublishedSite :=
  lookupA site_id s.published

/-- BundleStore::record_access: when a hosted record exists, set its
last_accessed to the clock reading and bump access_count (u64 wrapping),
then re-insert; otherwise do nothing. Both branches return Ok(()) in the
source — the only error paths are the KV engine and deserialization, which
the model treats as absent. -/
def BundleStore.record_access (s : BundleStore) (site_id : SiteId) (now : Nat) : BundleStore :=
  match lookupA site_id s.hosted with
  | Option.none => s
  | some site =>
    let site2 := { site with last_accessed := now, access_count := (site.access_count + 1) % U64 }
    { s with hosted := insertA site_id site2 s.hosted }

/-! ## publisher/bundle.rs -/

structure PublishOptions where
  name : Option Bytes
  entry : Option Bytes
  key_name : Option Bytes
  compress : Bool
  chunk_size : Option Nat
  spa_fallback : Option Bytes
  clean_urls : Bool
  pre_hook : Option Bytes
  post_hook : Option Bytes
deriving DecidableEq

/-- PublishOptions::default(): all options absent, booleans false. -/
def defaultOptions : PublishOptions :=
  ⟨Option.none, Option.none, Option.none, false, Option.none, Option.none, false,
   Option.none, Option.none⟩

structure PublishResult where
  bundle : WebBundle
  file_count : Nat
  total_size : Nat
  compressed_size : Nat
  chunk_count : Nat
  new_chunks : Nat
deriving DecidableEq

structure BundleStats where
  total_size : Nat
  compressed_size : Nat
  chunk_count : Nat
  new_chunks : Nat
deriving DecidableEq

/-- The skip filter of bundle_directory: hidden files, hidden directories,
node_modules and target trees. -/
def skipFile (p : Bytes) : Bool :=
  startsWithB p (strBytes ".") || hasSeg p (strBytes "/.") ||
  startsWithB p (strBytes "node_modules/") || startsWithB p (strBytes "target/")

/-- publisher::is_compressible. -/
def is_compressible (mime : Bytes) : Bool :=
  startsWithB mime (strBytes "text/") || hasSeg mime (strBytes "javascript") ||
  hasSeg mime (strBytes "json") || hasSeg mime (strBytes "xml") ||
  hasSeg mime (strBytes "svg") || mime == strBytes "application/wasm"

/-- Fuelled slice::chunks: fixed-size pieces, the last possibly short. -/
def chunksOfF (n : Nat) : Nat → Bytes → List Bytes
  | _, [] => []
  | 0, _ :: _ => []
  | fuel + 1, a :: rest => ((a :: rest).take n) :: chunksOfF n fuel ((a :: rest).drop n)

/-- slice::chunks(n); Rust panics on n = 0, a case no caller reaches (the
chunk size option defaults to 256 KiB), rendered here as the empty list. -/
def chunksOf (n : Nat) (l : Bytes) : List Bytes :=
  if n = 0 then [] else chunksOfF n l.length l

/-- The per-file chunk loop of bundle_directory: put each chunk into the
store, count a chunk as new when its id differs from every id already pushed
for this file (the source never consults the store for this count), and
record the ids in order. -/
def putChunks (hb : Bytes → Bytes) : List Bytes → ChunkStore → List Hash → Nat →
    List Hash × Nat × ChunkStore
  | [], st, chunks, newc => (chunks, newc, st)
  | cd :: rest, st, chunks, newc =>
    let r := st.put hb cd
    let newc2 := if chunks.all (fun id => id != r.1) then newc + 1 else newc
    putChunks hb rest r.2 (chunks ++ [r.1]) newc2

/-- One iteration of bundle_directory's walk loop for a yielded file: apply
the skip filter, account the original size, pick the MIME type, gzip when
enabled and beneficial (kept only if strictly smaller), account the stored
size, chunk and store the payload, and push the entry with the BLAKE3 hash
of the original bytes. -/
def processFile (hb gzipC mimeOf : Bytes → Bytes) (chunk_size : Nat) (compress : Bool)
    (acc : List FileEntry × BundleStats × ChunkStore) (pf : Bytes × Bytes) :
    List FileEntry × BundleStats × ChunkStore :=
  if skipFile pf.1 then acc
  else
    let content := pf.2
    let stats1 := { acc.2.1 with total_size := acc.2.1.total_size + content.length }
    let mime := mimeOf pf.1
    let dc : Bytes × Option Compression :=
      if compress && is_compressible mime then
        let compressed := gzipC content
        if compressed.length < content.length then (compressed, some Compression.gzip)
        else (content, Option.none)
      else (content, Option.none)
    let stats2 := { stats1 with compressed_size := stats1.compressed_size + dc.1.length }
    let r := putChunks hb (chunksOf chunk_size dc.1) acc.2.2 [] 0
    let stats3 := { stats2 with chunk_count := stats2.chunk_count + (chunksOf chunk_size dc.1).length,
                                new_chunks := stats2.new_chunks + r.2.1 }
    (acc.1 ++ [⟨pf.1, hb content, content.length, mime, r.1, dc.2⟩], stats3, r.2.2)

/-- Comparator used by bundle_directory's final sort. -/
def fileLe (a b : FileEntry) : Bool := lexLe a.path b.path

/-- Publisher::bundle_directory: the walked files (as relative forward-slash
paths with their contents, in walk order) are processed in order and the
entries sorted by path. -/
def bundle_directory (hb gzipC mimeOf : Bytes → Bytes) (files : List (Bytes × Bytes))
    (chunk_size : Nat) (compress : Bool) (store : ChunkStore) :
    List FileEntry × BundleStats × ChunkStore :=
  let r := files.foldl (processFile hb gzipC mimeOf chunk_size compress) ([], ⟨0, 0, 0, 0⟩, store)
  (sortBy fileLe r.1, r.2.1, r.2.2)

/-- The entry auto-detection of Publisher::publish: the first of index.html,
index.htm, main.html that occurs among the file paths. -/
def autoEntry (files : List FileEntry) : Option Bytes :=
  [strBytes "index.html", strBytes "index.htm", strBytes "main.html"].find?
    (fun c => files.any (fun f => f.path == c))

/-- Publisher::publish. The directory walk and the key store are the
boundary: the walked (path, content) pairs, the directory's final path
component, the canonicalized root path, and the keypair returned by
get_or_create are inputs; the clock reading is the now parameter. Everything
from the site id on is embedded from the source, including the created_at
field of the published record being the clock only at revision one and zero
afterwards. -/
def publish (hb gzipC mimeOf : Bytes → Bytes) (dalekSign : Bytes → Bytes → Bytes)
    (files : List (Bytes × Bytes)) (options : PublishOptions) (dirName root_path : Bytes)
    (public_key private_key : Bytes) (now : Nat)
    (chunk_store : ChunkStore) (bundle_store : BundleStore) :
    PublishResult × ChunkStore × BundleStore :=
  let name := options.name.getD dirName
  let site_id := hb (public_key ++ name)
  let previous_revision := ((bundle_store.get_published_site site_id).map
    (fun s => s.revision)).getD 0
  let revision := (previous_revision + 1) % U64
  let chunk_size := options.chunk_size.getD (256 * 1024)
  let r := bundle_directory hb gzipC mimeOf files chunk_size options.compress chunk_store
  let fs := r.1
  let entry := (options.entry.orElse (fun _ => autoEntry fs)).getD (strBytes "index.html")
  let routes := if options.spa_fallback.isSome || options.clean_urls then
      some (⟨options.clean_urls, options.spa_fallback, [], []⟩ : RouteConfig)
    else Option.none
  let manifest : SiteManifest := ⟨fs, entry, routes, Option.none⟩
  let root_hash := (MerkleTree.new hb (fs.map (fun f => f.hash))).root
  let signature := sign_bundle dalekSign site_id revision root_hash private_key
  let bundle : WebBundle := ⟨site_id, name, revision, root_hash, public_key, signature,
    manifest, now⟩
  let bs1 := bundle_store.save_bundle bundle
  let published : PublishedSite := ⟨site_id, name, revision, root_path,
    if revision = 1 then now else 0, now⟩
  (⟨bundle, fs.length, r.2.1.total_size, r.2.1.compressed_size, r.2.1.chunk_count,
    r.2.1.new_chunks⟩, r.2.2, bs1.save_published_site published)

/-! ## network/node.rs -/

structure PeerRecord where
  peer_id : String
  addresses : List String
  revision : Nat
deriving DecidableEq

inductive GrabRequest where
  | FindSite (site_id : SiteId)
  | GetManifest (site_id : SiteId)
  | GetChunks (chunk_ids : List Bytes)
  | Announce (site_id : SiteId) (revision : Nat)
  | PushUpdate (bundle : WebBundle)
deriving DecidableEq

inductive GrabResponse where
  | SiteHosts (hosts : List PeerRecord)
  | Manifest (bundle : WebBundle)
  | Chunks (chunks : List (Bytes × Bytes))
  | Ack
  | Error (message : String)
deriving DecidableEq

/-- node::handle_request, over the stores and the announced-sites map. The
PushUpdate arm saves the bundle and acknowledges without any signature
check. -/
def handle_request (request : GrabRequest) (chunk_store : ChunkStore)
    (bundle_store : BundleStore) (announced_sites : List (SiteId × Nat))
    (local_peer_id : String) : GrabResponse × ChunkStore × BundleStore :=
  match request with
  | .FindSite site_id =>
    match lookupA site_id announced_sites with
    | some revision => (.SiteHosts [⟨local_peer_id, [], revision⟩], chunk_store, bundle_store)
    | Option.none => (.SiteHosts [], chunk_store, bundle_store)
  | .GetManifest site_id =>
    match lookupA site_id bundle_store.bundles with
    | some bundle => (.Manifest bundle, chunk_store, bundle_store)
    | Option.none => (.Error "Site not found", chunk_store, bundle_store)
  | .GetChunks chunk_ids =>
    let r := chunk_ids.foldl
      (fun acc chunk_id =>
        let g := acc.2.get chunk_id
        match g.1 with
        | some data => (acc.1 ++ [(chunk_id, data)], g.2)
        | Option.none => (acc.1, g.2))
      (([] : List (Bytes × Bytes)), chunk_store)
    (.Chunks r.1, r.2, bundle_store)
  | .Announce _ _ => (.Ack, chunk_store, bundle_store)
  | .PushUpdate bundle => (.Ack, chunk_store, bundle_store.save_bundle bundle)

/-! ## network/health.rs -/

structure NetworkMetrics where
  total_peers_seen : Nat
  connected_peers : Nat
  total_bytes_transferred : Nat
  total_requests : Nat
  successful_requests : Nat
  avg_latency_ms : Nat
  uptime_secs : Nat
  last_updated : Nat
deriving DecidableEq

structure HealthSummary where
  status : String
  connected_peers : Nat
  avg_peer_score : ℚ
  network_reliability : ℚ
  avg_latency_ms : Nat
  uptime_secs : Nat
  total_bytes_transferred : Nat
deriving DecidableEq

/-- Fuelled floor of the base-two logarithm (0 for inputs of at most 1). -/
def log2F : Nat → Nat → Nat
  | 0, _ => 0
  | fuel + 1, n => if n ≤ 1 then 0 else 1 + log2F fuel (n / 2)

/-- Floor of the base-two logarithm of a natural number (0 at 0). -/
def natLog2 (n : Nat) : Nat := log2F n n

/-- Floor of the base-two logarithm of the positive rational a/b, computed
through the integer part of a·2^96/b. This is exact whenever a/b ≥ 2^-96
(floorLog2N_spec below); every quotient the health computation can produce is
a ratio of u64-derived values and stays far inside that range. -/
def floorLog2N (a b : Nat) : ℤ := (natLog2 (a * 2 ^ 96 / b) : ℤ) - 96

/-- Round the fraction p/q to the nearest integer, ties to even — IEEE 754's
default rounding, applied to the scaled significand. -/
def rndNE (p q : Nat) : Nat :=
  if 2 * (p % q) < q then p / q
  else if q < 2 * (p % q) then p / q + 1
  else if p / q % 2 = 0 then p / q else p / q + 1

/-- Round the positive rational p/q to the nearest IEEE binary64 value,
returned as a significand/exponent pair (value m·2^e): scale the quotient
into [2^52, 2^53) and round to nearest even. Overflow and subnormals are not
modelled; no value of the health computation (u64 counters, their ratios,
and percentages) comes near them. -/
def roundPair (p q : Nat) : Nat × ℤ :=
  let e : ℤ := floorLog2N p q - 52
  (rndNE (p * 2 ^ (-e).toNat) (q * 2 ^ e.toNat), e)

/-- A u64 converted with `as f64`: exact below 2^53, nearest-even above. -/
def f64OfNat (n : Nat) : Nat × ℤ := if n = 0 then (0, 0) else roundPair n 1

/-- IEEE f64 division: the exact rational quotient, rounded once. -/
def f64Div (x y : Nat × ℤ) : Nat × ℤ :=
  if x.1 = 0 then (0, 0)
  else roundPair (x.1 * 2 ^ (x.2 - y.2).toNat) (y.1 * 2 ^ (y.2 - x.2).toNat)

/-- IEEE f64 multiplication by the exactly representable constant 100.0: the
exact product, rounded once. -/
def f64Mul100 (x : Nat × ℤ) : Nat × ℤ :=
  if x.1 = 0 then (0, 0)
  else roundPair (x.1 * 100 * 2 ^ x.2.toNat) (2 ^ (-x.2).toNat)

/-- The exact rational value of a significand/exponent pair. -/
def f64Val (x : Nat × ℤ) : ℚ := (x.1 : ℚ) * (2 : ℚ) ^ x.2

/-- The reliability local of HealthMonitor::get_health_summary: the source's
f64 expression (successful_requests as f64 / total_requests as f64) * 100.0,
modelled value-exactly — each conversion and operation rounds its exact
rational result to the nearest binary64 value, ties to even, as IEEE 754
prescribes. The comparisons against the literals 95.0 and 80.0 (both exact
doubles) are then exact rational comparisons on the resulting value. -/
def networkReliability (metrics : NetworkMetrics) : ℚ :=
  if metrics.total_requests > 0 then
    f64Val (f64Mul100 (f64Div (f64OfNat metrics.successful_requests)
      (f64OfNat metrics.total_requests)))
  else 0

/-- The status string of HealthMonitor::get_health_summary: strictly above
95 is healthy, strictly above 80 is good, anything else degraded. -/
def healthStatusStr (metrics : NetworkMetrics) : String :=
  if networkReliability metrics > 95 then "healthy"
  else if networkReliability metrics > 80 then "good" else "degraded"

/-- HealthMonitor::get_health_summary; scores holds the peer scores
delivered by get_all_scores. -/
def get_health_summary (metrics : NetworkMetrics) (scores : List ℚ) : HealthSummary :=
  { status := healthStatusStr metrics,
    connected_peers := metrics.connected_peers,
    avg_peer_score := if scores = [] then 0 else scores.sum / scores.length,
    network_reliability := networkReliability metrics,
    avg_latency_ms := metrics.avg_latency_ms,
    uptime_secs := metrics.uptime_secs,
    total_bytes_transferred := metrics.total_bytes_transferred }

/-! ## Concrete instantiations of the external-crate parameters, used by the
closed evaluation theorems below. cHb stands in for blake3 (any function of
the bytes works for the properties at issue; this one keys on the length),
cMime for mime_guess, cSign for dalek signing. -/

def cHb (b : Bytes) : Bytes := b.length % 256 :: List.replicate 31 0

def cMime (_p : Bytes) : Bytes := strBytes "text/plain"

def cSign (_m _k : Bytes) : Bytes := List.replicate 64 0

/-- A freshly opened chunk store over an empty directory (ChunkStore::new
reconciles both counters from the empty db). -/
def emptyCS : ChunkStore := ⟨[], [], 1000, 0, 0⟩

/-- A freshly opened bundle store: all five trees empty. -/
def emptyBS : BundleStore := ⟨[], [], [], [], []⟩

/-- First publish of a directory holding the single file index.html with
body <h1>Hi</h1>, default options, at clock 5 (scenario S1 of the spec). -/
def c3First : PublishResult × ChunkStore × BundleStore :=
  publish cHb id cMime cSign [(strBytes "index.html", strBytes "<h1>Hi</h1>")]
    defaultOptions (strBytes "site") (strBytes "/site") zero32 one32 5 emptyCS emptyBS

/-- Republish of the identical directory against the stores left by
c3First, at clock 9 (scenario S2 of the spec). -/
def c3Second : PublishResult × ChunkStore × BundleStore :=
  publish cHb id cMime cSign [(strBytes "index.html", strBytes "<h1>Hi</h1>")]
    defaultOptions (strBytes "site") (strBytes "/site") zero32 one32 9 c3First.2.1 c3First.2.2

/-- The site id of the c3First/c3Second site: BLAKE3(publisher, name). -/
def c3SiteId : SiteId := cHb (zero32 ++ strBytes "site")

/-- A pushed bundle whose signature is empty, hence fails verification under
every dalek backend (the length guard alone rejects it). -/
def c1Bundle : WebBundle :=
  ⟨zero32, strBytes "x", 1, zero32, zero32, [],
   ⟨[], strBytes "index.html", Option.none, Option.none⟩, 0⟩

/-- A hosted record with three prior accesses. -/
def c10Hosted : HostedSite := ⟨zero32, strBytes "s", 1, 2, 3, 3⟩

/-- A bundle store hosting exactly one site. -/
def c10Store : BundleStore := ⟨[], [(zero32, c10Hosted)], [], [], []⟩

/-- A publish of a directory whose only file is foo.txt — no entry-point
candidate exists, so the manifest records index.html without having it. -/
def c2Out : PublishResult × ChunkStore × BundleStore :=
  publish cHb id cMime cSign [(strBytes "foo.txt", strBytes "a")]
    defaultOptions (strBytes "site") (strBytes "/site") zero32 one32 5 emptyCS emptyBS

/-- A publish of a directory holding index.html and a second file, used as
the concrete witness input of the entry/sortedness theorem. -/
def c2wOut : PublishResult × ChunkStore × BundleStore :=
  publish cHb id cMime cSign
    [(strBytes "style.css", strBytes "b"), (strBytes "index.html", strBytes "hi")]
    defaultOptions (strBytes "site") (strBytes "/site") zero32 one32 5 emptyCS emptyBS

/-! # Theorems -/

/-- Reading back the binding just inserted. -/
theorem lookupA_insert_self {β : Type} (k : Bytes) (v : β) (l : List (Bytes × β)) :
    lookupA k (insertA k v l) = some v := by
  simp [lookupA, insertA]

/-- An insert leaves every other key's binding unchanged. -/
theorem lookupA_insert_ne {β : Type} (k k2 : Bytes) (v : β) (l : List (Bytes × β))
    (h : k2 ≠ k) : lookupA k2 (insertA k v l) = lookupA k2 l := by
  have h2 : ¬(k = k2) := fun hh => h hh.symm
  simp [insertA, lookupA, h2]

/-- C7: ChunkStore.put is idempotent: both calls return BLAKE3 of the bytes,
the second call changes nothing at all in the store state (so it performs no
write and adds nothing to the size accounting), and across both calls the
chunk count grows by at most one. -/
theorem c7_put_idempotent (hb : Bytes → Bytes) (s : ChunkStore) (b : Bytes) :
    (s.put hb b).1 = hb b ∧ ((s.put hb b).2.put hb b).1 = hb b ∧
    ((s.put hb b).2.put hb b).2 = (s.put hb b).2 ∧
    (s.put hb b).2.chunk_count ≤ s.chunk_count + 1 := by
  by_cases h : (lookupA (hb b) s.db).isSome
  · simp [ChunkStore.put, h]
  · have h2 : (lookupA (hb b) (insertA (hb b) b s.db)).isSome := by
      rw [lookupA_insert_self]; rfl
    simp [ChunkStore.put, h, h2, ChunkStore.cachePut]
    exact Nat.le_trans (Nat.mod_le _ _) (Nat.le_refl _)

/-- C10: record_access on a site without a hosted record returns the store
unchanged (and the source returns Ok(()) on that path); with a hosted
record, the four other tables are untouched, other hosted keys are
untouched, and the record's only changes are last_accessed set to the clock
and access_count bumped by exactly one (as long as the u64 does not wrap). -/
theorem c10_record_access_frame (s : BundleStore) (site_id : SiteId) (now : Nat) :
    (lookupA site_id s.hosted = Option.none → s.record_access site_id now = s) ∧
    (∀ site, lookupA site_id s.hosted = some site →
      ((s.record_access site_id now).published = s.published ∧
       (s.record_access site_id now).bundles = s.bundles ∧
       (s.record_access site_id now).manifests = s.manifests ∧
       (s.record_access site_id now).names = s.names ∧
       (∀ k, k ≠ site_id → lookupA k (s.record_access site_id now).hosted = lookupA k s.hosted) ∧
       (site.access_count + 1 < U64 →
         ∃ site2, lookupA site_id (s.record_access site_id now).hosted = some site2 ∧
           site2.last_accessed = now ∧ site2.access_count = site.access_count + 1 ∧
           site2.site_id = site.site_id ∧ site2.name = site.name ∧
           site2.revision = site.revision ∧ site2.hosted_at = site.hosted_at))) := by
  constructor
  · intro h
    simp [BundleStore.record_access, h]
  · intro site h
    simp only [BundleStore.record_access, h]
    refine ⟨trivial, trivial, trivial, trivial, ?_, ?_⟩
    · intro k hk
      exact lookupA_insert_ne site_id k _ _ hk
    · intro hlt
      refine ⟨_, lookupA_insert_self site_id _ _, rfl, ?_, rfl, rfl, rfl, rfl⟩
      exact Nat.mod_eq_of_lt hlt

/-- Witness for C10 at concrete stores: an absent site id leaves the empty
store untouched; for the hosted record with three accesses the updated
record has four and the new clock. -/
theorem c10_witness :
    (emptyBS.record_access one32 7 = emptyBS) ∧
    (∃ site2, lookupA zero32 ((c10Store.record_access zero32 7).hosted) = some site2 ∧
      site2.last_accessed = 7 ∧ site2.access_count = 4) := by
  constructor
  · exact (c10_record_access_frame emptyBS one32 7).1 (by decide)
  · obtain ⟨site2, h1, h2, h3, _⟩ :=
      ((c10_record_access_frame c10Store zero32 7).2 c10Hosted (by decide)).2.2.2.2.2 (by decide)
    exact ⟨site2, h1, h2, h3⟩

/-- C1 (code evaluated at the failing input): the PushUpdate handler answers
Ack and persists the bundle into the bundles table even though the bundle's
signature verifies under no dalek backend at all (it is rejected by the
length guard alone). The claim's required Error response and non-persistence
do not happen; the handler never calls verify_bundle. -/
theorem c1_push_update_persists_unverified :
    handle_request (.PushUpdate c1Bundle) emptyCS emptyBS [] "peer" =
      (.Ack, emptyCS, emptyBS.save_bundle c1Bundle) ∧
    lookupA c1Bundle.site_id (emptyBS.save_bundle c1Bundle).bundles = some c1Bundle ∧
    (∀ dalekVerify, verify_bundle dalekVerify c1Bundle.site_id c1Bundle.revision
      c1Bundle.root_hash c1Bundle.signature c1Bundle.publisher = false) := by
  refine ⟨rfl, by decide, fun dalekVerify => ?_⟩
  simp [verify_bundle, verify, c1Bundle]

/-- C3 (code evaluated at the failing input): republishing the unchanged
single-file directory reports new_chunks = 1, not the claimed 0, although
every chunk is already in the store; the revision does increment to 2 and
the root hash is reproduced exactly. The source counts a chunk as new when
its id is distinct from the ids already seen for the same file and never
consults the chunk store for this statistic. -/
theorem c3_republish_counts_old_chunks :
    c3Second.1.new_chunks = 1 ∧ c3Second.1.new_chunks ≠ 0 ∧
    c3Second.1.bundle.revision = 2 ∧
    c3Second.1.bundle.root_hash = c3First.1.bundle.root_hash ∧
    c3Second.1.file_count = 1 ∧ c3First.1.bundle.revision = 1 := by decide

/-- C5 (code evaluated at the failing input): the first publish records
created_at = 5 (the clock of revision one); the republish overwrites the
record with created_at = 0 instead of preserving 5. -/
theorem c5_created_at_not_preserved :
    (c3First.2.2.get_published_site c3SiteId).map PublishedSite.created_at = some 5 ∧
    (c3Second.2.2.get_published_site c3SiteId).map PublishedSite.created_at = some 0 := by decide

/-- The fuelled logarithm brackets its input between consecutive powers of
two once the fuel covers it. -/
theorem log2F_spec : ∀ (fuel n : Nat), 1 ≤ n → n ≤ fuel →
    2 ^ log2F fuel n ≤ n ∧ n < 2 ^ (log2F fuel n + 1)
  | 0, _, h1, h2 => by omega
  | fuel + 1, n, h1, _ => by
    simp only [log2F]
    by_cases hn : n ≤ 1
    · rw [if_pos hn]
      have e0 : (2 : Nat) ^ 0 = 1 := pow_zero 2
      have e1 : (2 : Nat) ^ (0 + 1) = 2 := by norm_num
      omega
    · rw [if_neg hn]
      obtain ⟨hlo, hhi⟩ := log2F_spec fuel (n / 2) (by omega) (by omega)
      have hp1 : 2 ^ (1 + log2F fuel (n / 2)) = 2 * 2 ^ log2F fuel (n / 2) := by
        rw [pow_add, pow_one]
      have hp2 : 2 ^ (1 + log2F fuel (n / 2) + 1) = 2 ^ (log2F fuel (n / 2) + 1) * 2 := by
        have he : 1 + log2F fuel (n / 2) + 1 = (log2F fuel (n / 2) + 1) + 1 := by omega
        rw [he, pow_succ]
      omega

/-- natLog2 is the floor of the base-two logarithm. -/
theorem natLog2_spec (n : Nat) (h : 1 ≤ n) :
    2 ^ natLog2 n ≤ n ∧ n < 2 ^ (natLog2 n + 1) :=
  log2F_spec n n h (Nat.le_refl n)

/-- floorLog2N is the floor of the base-two logarithm of a/b whenever the
quotient is at least 2^-96, i.e. b ≤ a·2^96. -/
theorem floorLog2N_spec (a b : Nat) (hb : 1 ≤ b) (hab : b ≤ a * 2 ^ 96) :
    (2 : ℚ) ^ floorLog2N a b ≤ (a : ℚ) / (b : ℚ) ∧
    (a : ℚ) / (b : ℚ) < (2 : ℚ) ^ (floorLog2N a b + 1) := by
  have hbpos : 0 < b := by omega
  have ht1 : 1 ≤ a * 2 ^ 96 / b := (Nat.one_le_div_iff hbpos).mpr hab
  obtain ⟨hlo, hhi⟩ := natLog2_spec (a * 2 ^ 96 / b) ht1
  have hd1 : (a * 2 ^ 96 / b) * b ≤ a * 2 ^ 96 := Nat.div_mul_le_self _ _
  have hd2 : a * 2 ^ 96 < (a * 2 ^ 96 / b + 1) * b :=
    (Nat.div_lt_iff_lt_mul hbpos).mp (Nat.lt_succ_self _)
  have hNat1 : 2 ^ natLog2 (a * 2 ^ 96 / b) * b ≤ a * 2 ^ 96 :=
    le_trans (Nat.mul_le_mul_right b hlo) hd1
  have hNat2 : a * 2 ^ 96 < 2 ^ (natLog2 (a * 2 ^ 96 / b) + 1) * b :=
    lt_of_lt_of_le hd2 (Nat.mul_le_mul_right b (by omega))
  have hbq : (0 : ℚ) < (b : ℚ) := by exact_mod_cast hbpos
  have h2pos : (0 : ℚ) < (2 : ℚ) ^ (96 : Nat) := by positivity
  have hM96 : floorLog2N a b = (natLog2 (a * 2 ^ 96 / b) : ℤ) - (96 : Nat) := by
    unfold floorLog2N
    norm_num
  constructor
  · have hcast1 : ((2 : ℚ) ^ natLog2 (a * 2 ^ 96 / b)) * b ≤ (a : ℚ) * 2 ^ (96 : Nat) := by
      exact_mod_cast hNat1
    have hstep : (2 : ℚ) ^ natLog2 (a * 2 ^ 96 / b) / 2 ^ (96 : Nat) ≤ (a : ℚ) / b := by
      rw [div_le_div_iff₀ h2pos hbq]
      exact hcast1
    have hz : (2 : ℚ) ^ floorLog2N a b =
        (2 : ℚ) ^ natLog2 (a * 2 ^ 96 / b) / (2 : ℚ) ^ (96 : Nat) := by
      rw [hM96, zpow_sub₀ (by norm_num : (2 : ℚ) ≠ 0), zpow_natCast, zpow_natCast]
    rw [hz]
    exact hstep
  · have hcast2 : (a : ℚ) * 2 ^ (96 : Nat) <
        (2 : ℚ) ^ (natLog2 (a * 2 ^ 96 / b) + 1) * b := by
      exact_mod_cast hNat2
    have hstep : (a : ℚ) / b < (2 : ℚ) ^ (natLog2 (a * 2 ^ 96 / b) + 1) / 2 ^ (96 : Nat) := by
      rw [div_lt_div_iff₀ hbq h2pos]
      exact hcast2
    have hz : (2 : ℚ) ^ (floorLog2N a b + 1) =
        (2 : ℚ) ^ (natLog2 (a * 2 ^ 96 / b) + 1) / (2 : ℚ) ^ (96 : Nat) := by
      have he : floorLog2N a b + 1 =
          ((natLog2 (a * 2 ^ 96 / b) + 1 : Nat) : ℤ) - (96 : Nat) := by
        rw [hM96]
        push_cast
        ring
      rw [he, zpow_sub₀ (by norm_num : (2 : ℚ) ≠ 0), zpow_natCast, zpow_natCast]
    rw [hz]
    exact hstep

set_option maxRecDepth 20000 in
/-- The f64 computation at nineteen successes of twenty requests yields the
significand/exponent pair of exactly 95.0. -/
theorem reliability_19_of_20 : networkReliability ⟨0, 0, 0, 20, 19, 0, 0, 0⟩ = 95 := by
  have hp : f64Mul100 (f64Div (f64OfNat 19) (f64OfNat 20)) = (6685030696878080, -46) := by
    decide
  show (if (0 : Nat) < 20 then
    f64Val (f64Mul100 (f64Div (f64OfNat 19) (f64OfNat 20))) else 0) = 95
  rw [if_pos (by norm_num), hp]
  show ((6685030696878080 : ℚ)) * (2 : ℚ) ^ (-46 : ℤ) = 95
  rw [show (-46 : ℤ) = -((46 : Nat) : ℤ) by norm_num, zpow_neg, zpow_natCast]
  rw [mul_inv_eq_iff_eq_mul₀ (by positivity)]
  norm_num

set_option maxRecDepth 20000 in
/-- The f64 computation at four successes of five requests yields the
significand/exponent pair of exactly 80.0. -/
theorem reliability_4_of_5 : networkReliability ⟨0, 0, 0, 5, 4, 0, 0, 0⟩ = 80 := by
  have hp : f64Mul100 (f64Div (f64OfNat 4) (f64OfNat 5)) = (5629499534213120, -46) := by
    decide
  show (if (0 : Nat) < 5 then
    f64Val (f64Mul100 (f64Div (f64OfNat 4) (f64OfNat 5))) else 0) = 80
  rw [if_pos (by norm_num), hp]
  show ((5629499534213120 : ℚ)) * (2 : ℚ) ^ (-46 : ℤ) = 80
  rw [show (-46 : ℤ) = -((46 : Nat) : ℤ) by norm_num, zpow_neg, zpow_natCast]
  rw [mul_inv_eq_iff_eq_mul₀ (by positivity)]
  norm_num

/-- The summary status partitions by the strict thresholds of the source's
comparison chain, stated on the f64-computed reliability value. -/
theorem healthStatus_iff (m : NetworkMetrics) (scores : List ℚ) :
    ((get_health_summary m scores).status = "healthy" ↔ 95 < networkReliability m) ∧
    ((get_health_summary m scores).status = "good" ↔
      (80 < networkReliability m ∧ networkReliability m ≤ 95)) ∧
    ((get_health_summary m scores).status = "degraded" ↔ networkReliability m ≤ 80) := by
  have hstat : (get_health_summary m scores).status = healthStatusStr m := rfl
  rw [hstat]
  unfold healthStatusStr
  by_cases h95 : networkReliability m > 95
  · rw [if_pos h95]
    refine ⟨⟨fun _ => h95, fun _ => rfl⟩, ?_, ?_⟩
    · constructor
      · intro hc
        exact absurd hc (by decide)
      · rintro ⟨_, hle⟩
        exact absurd h95 (not_lt.mpr hle)
    · constructor
      · intro hc
        exact absurd hc (by decide)
      · intro hle
        exact absurd h95 (not_lt.mpr (hle.trans (by norm_num)))
  · rw [if_neg h95]
    have hle95 : networkReliability m ≤ 95 := not_lt.mp h95
    by_cases h80 : networkReliability m > 80
    · rw [if_pos h80]
      refine ⟨?_, ⟨fun _ => ⟨h80, hle95⟩, fun _ => rfl⟩, ?_⟩
      · constructor
        · intro hc
          exact absurd hc (by decide)
        · intro hlt
          exact absurd hlt h95
      · constructor
        · intro hc
          exact absurd hc (by decide)
        · intro hle80
          exact absurd h80 (not_lt.mpr hle80)
    · rw [if_neg h80]
      have hle80 : networkReliability m ≤ 80 := not_lt.mp h80
      refine ⟨?_, ?_, ⟨fun _ => hle80, fun _ => rfl⟩⟩
      · constructor
        · intro hc
          exact absurd hc (by decide)
        · intro hlt
          exact absurd hlt h95
      · constructor
        · intro hc
          exact absurd hc (by decide)
        · rintro ⟨hlt, _⟩
          exact absurd hlt h80

/-- C6 counterexample: at twenty requests with nineteen successes the
aggregate reliability is exactly 95 percent (the f64 computation
19.0/20.0*100.0 yields exactly 95.0, reproduced by the bit-exact model), yet
the summary status is "good", not the "healthy" the claim requires for
reliability ≥ 95. -/
theorem c6_threshold_counterexample :
    (get_health_summary ⟨0, 0, 0, 20, 19, 0, 0, 0⟩ []).status = "good" ∧
    (get_health_summary ⟨0, 0, 0, 20, 19, 0, 0, 0⟩ []).network_reliability = 95 := by
  constructor
  · have h1 : (get_health_summary ⟨0, 0, 0, 20, 19, 0, 0, 0⟩ []).status =
        healthStatusStr ⟨0, 0, 0, 20, 19, 0, 0, 0⟩ := rfl
    rw [h1]
    unfold healthStatusStr
    rw [reliability_19_of_20]
    norm_num
  · have h2 : (get_health_summary ⟨0, 0, 0, 20, 19, 0, 0, 0⟩ []).network_reliability =
        networkReliability ⟨0, 0, 0, 20, 19, 0, 0, 0⟩ := rfl
    rw [h2]
    exact reliability_19_of_20

/-- C6 amended: the summary status is "healthy" exactly when the reliability
the source computes in f64 strictly exceeds 95, "good" exactly when it
strictly exceeds 80 but is at most 95, and "degraded" otherwise; at exactly
95 percent (nineteen of twenty) the f64 value is exactly 95.0 and the status
is "good", and at exactly 80 percent (four of five) it is exactly 80.0 and
the status is "degraded". -/
theorem c6_status_strict_thresholds :
    (∀ (m : NetworkMetrics) (scores : List ℚ),
      ((get_health_summary m scores).status = "healthy" ↔ 95 < networkReliability m) ∧
      ((get_health_summary m scores).status = "good" ↔
        (80 < networkReliability m ∧ networkReliability m ≤ 95)) ∧
      ((get_health_summary m scores).status = "degraded" ↔ networkReliability m ≤ 80)) ∧
    networkReliability ⟨0, 0, 0, 20, 19, 0, 0, 0⟩ = 95 ∧
    (get_health_summary ⟨0, 0, 0, 20, 19, 0, 0, 0⟩ []).status = "good" ∧
    networkReliability ⟨0, 0, 0, 5, 4, 0, 0, 0⟩ = 80 ∧
    (get_health_summary ⟨0, 0, 0, 5, 4, 0, 0, 0⟩ []).status = "degraded" := by
  refine ⟨healthStatus_iff, reliability_19_of_20, ?_, reliability_4_of_5, ?_⟩
  · exact (healthStatus_iff ⟨0, 0, 0, 20, 19, 0, 0, 0⟩ []).2.1.mpr
      ⟨by rw [reliability_19_of_20]; norm_num, by rw [reliability_19_of_20]⟩
  · exact (healthStatus_iff ⟨0, 0, 0, 5, 4, 0, 0, 0⟩ []).2.2.mpr
      (by rw [reliability_4_of_5])

/-- C8: assuming the two contracted properties of the external ed25519-dalek
crate — signatures are 64 bytes, and a signature over a message verifies
under the signer's public key — the repository's verify_bundle accepts
exactly what sign_bundle produced, for every site id, revision, root hash and
key; the canonical message is 72 bytes when the ids are 32 bytes; and every
bundle built by Publisher::publish verifies under its own publisher key. -/
theorem c8_sign_verify_roundtrip
    (dalekSign : Bytes → Bytes → Bytes) (dalekVerify : Bytes → Bytes → Bytes → Bool)
    (pubOf : Bytes → Bytes)
    (hlen : ∀ msg k, (dalekSign msg k).length = 64)
    (hround : ∀ msg k, dalekVerify msg (dalekSign msg k) (pubOf k) = true) :
    (∀ site_id revision root_hash private_key,
      verify_bundle dalekVerify site_id revision root_hash
        (sign_bundle dalekSign site_id revision root_hash private_key)
        (pubOf private_key) = true) ∧
    (∀ site_id revision root_hash,
      (site_id : Bytes).length = 32 → (root_hash : Bytes).length = 32 →
      (bundleMessage site_id revision root_hash).length = 72) ∧
    (∀ hb gzipC mimeOf files options dirName root_path private_key now cs bs,
      verify_bundle dalekVerify
        ((publish hb gzipC mimeOf dalekSign files options dirName root_path
          (pubOf private_key) private_key now cs bs).1.bundle.site_id)
        ((publish hb gzipC mimeOf dalekSign files options dirName root_path
          (pubOf private_key) private_key now cs bs).1.bundle.revision)
        ((publish hb gzipC mimeOf dalekSign files options dirName root_path
          (pubOf private_key) private_key now cs bs).1.bundle.root_hash)
        ((publish hb gzipC mimeOf dalekSign files options dirName root_path
          (pubOf private_key) private_key now cs bs).1.bundle.signature)
        ((publish hb gzipC mimeOf dalekSign files options dirName root_path
          (pubOf private_key) private_key now cs bs).1.bundle.publisher) = true) := by
  have main : ∀ site_id revision root_hash private_key,
      verify_bundle dalekVerify site_id revision root_hash
        (sign_bundle dalekSign site_id revision root_hash private_key)
        (pubOf private_key) = true := by
    intro sid rev root priv
    unfold verify_bundle sign_bundle verify sign
    rw [if_neg (by simp [hlen])]
    exact hround _ _
  refine ⟨main, ?_, ?_⟩
  · intro sid rev root h1 h2
    simp [bundleMessage, u64le, h1, h2]
  · intro hb gzipC mimeOf files options dirName root_path priv now cs bs
    exact main _ _ _ priv

/-- Witness for C8 at a concrete toy backend (constant 64-byte signatures,
verification checking exactly the signature length) and concrete inputs. -/
theorem c8_witness :
    verify_bundle (fun _ s _ => decide (s.length = 64)) zero32 5 one32
      (sign_bundle (fun _ _ => List.replicate 64 0) zero32 5 one32 one32) one32 = true :=
  (c8_sign_verify_roundtrip (fun _ _ => List.replicate 64 0)
    (fun _ s _ => decide (s.length = 64)) id
    (fun _ _ => by simp) (fun _ _ => by simp)).1 zero32 5 one32 one32

/-- Membership in an insertion step: exactly the inserted element plus the
old members. -/
theorem mem_insertSorted {α : Type} (le : α → α → Bool) (x z : α) :
    ∀ l : List α, z ∈ insertSorted le x l ↔ z = x ∨ z ∈ l
  | [] => by simp [insertSorted]
  | y :: ys => by
    unfold insertSorted
    by_cases h : le x y = true
    · rw [if_pos h]
      simp
    · rw [if_neg h]
      simp [mem_insertSorted le x z ys]
      tauto

/-- Inserting into a list sorted by a total transitive comparator keeps it
sorted. -/
theorem pairwise_insertSorted {α : Type} (le : α → α → Bool)
    (htot : ∀ a b, le a b = true ∨ le b a = true)
    (htrans : ∀ a b c, le a b = true → le b c = true → le a c = true) (x : α) :
    ∀ l : List α, l.Pairwise (fun a b => le a b = true) →
      (insertSorted le x l).Pairwise (fun a b => le a b = true)
  | [], _ => by simp [insertSorted]
  | y :: ys, hp => by
    unfold insertSorted
    rcases List.pairwise_cons.mp hp with ⟨hy, hys⟩
    by_cases h : le x y = true
    · rw [if_pos h]
      refine List.pairwise_cons.mpr ⟨?_, hp⟩
      intro z hz
      rcases List.mem_cons.mp hz with rfl | hz2
      · exact h
      · exact htrans x y z h (hy z hz2)
    · rw [if_neg h]
      have hyx : le y x = true := by
        rcases htot x y with h1 | h1
        · exact absurd h1 h
        · exact h1
      refine List.pairwise_cons.mpr ⟨?_, pairwise_insertSorted le htot htrans x ys hys⟩
      intro z hz
      rcases (mem_insertSorted le x z ys).mp hz with rfl | hz2
      · exact hyx
      · exact hy z hz2

/-- The stable sort by a total transitive comparator is sorted. -/
theorem sortBy_pairwise {α : Type} (le : α → α → Bool)
    (htot : ∀ a b, le a b = true ∨ le b a = true)
    (htrans : ∀ a b c, le a b = true → le b c = true → le a c = true) :
    ∀ l : List α, (sortBy le l).Pairwise (fun a b => le a b = true)
  | [] => by simp [sortBy]
  | x :: xs => by
    unfold sortBy
    exact pairwise_insertSorted le htot htrans x _ (sortBy_pairwise le htot htrans xs)

/-- Byte-lexicographic order is total. -/
theorem lexLe_total : ∀ l1 l2 : List Nat, lexLe l1 l2 = true ∨ lexLe l2 l1 = true
  | [], _ => Or.inl rfl
  | _ :: _, [] => Or.inr rfl
  | a :: as, b :: bs => by
    unfold lexLe
    rcases Nat.lt_trichotomy a b with h | h | h
    · left
      simp [h]
    · subst h
      simpa [Nat.lt_irrefl] using lexLe_total as bs
    · right
      simp [h]

/-- Byte-lexicographic order is transitive. -/
theorem lexLe_trans : ∀ l1 l2 l3 : List Nat,
    lexLe l1 l2 = true → lexLe l2 l3 = true → lexLe l1 l3 = true
  | [], _, _, _, _ => rfl
  | _ :: _, [], _, h12, _ => by simp [lexLe] at h12
  | _ :: _, _ :: _, [], _, h23 => by simp [lexLe] at h23
  | a :: as, b :: bs, c :: cs, h12, h23 => by
    have hrec := lexLe_trans as bs cs
    unfold lexLe at h12 h23 ⊢
    by_cases hab : a < b <;> by_cases hba : b < a <;>
      by_cases hbc : b < c <;> by_cases hcb : c < b <;>
      by_cases hac : a < c <;> by_cases hca : c < a <;>
      simp [hab, hba, hbc, hcb, hac, hca] at h12 h23 ⊢ <;>
      first
        | omega
        | exact hrec h12 h23

/-- The file comparator is total. -/
theorem fileLe_total (a b : FileEntry) : fileLe a b = true ∨ fileLe b a = true :=
  lexLe_total a.path b.path

/-- The file comparator is transitive. -/
theorem fileLe_trans (a b c : FileEntry) :
    fileLe a b = true → fileLe b c = true → fileLe a c = true :=
  lexLe_trans a.path b.path c.path

/-- C2 counterexample: the directory holding only foo.txt publishes to a
non-empty manifest whose entry, index.html, is the path of no file — the
claimed invariant (entry in file list or file list empty) fails. -/
theorem c2_entry_counterexample :
    c2Out.1.bundle.manifest.files ≠ [] ∧
    c2Out.1.bundle.manifest.entry ∉ (c2Out.1.bundle.manifest.files).map FileEntry.path := by
  decide

/-- C2 amended: the manifest's files are sorted ascending by path; the entry
is the explicit option verbatim when one is given; with no explicit option
the entry is the first of the probe candidates occurring among the file
paths — in which case it is a file path — and when no candidate occurs the
entry is the literal index.html, which may be absent from a non-empty file
list. -/
theorem c2_sorted_and_entry (hb gzipC mimeOf : Bytes → Bytes)
    (dalekSign : Bytes → Bytes → Bytes) (files : List (Bytes × Bytes))
    (options : PublishOptions) (dirName root_path pk sk : Bytes) (now : Nat)
    (cs : ChunkStore) (bs : BundleStore) :
    ((publish hb gzipC mimeOf dalekSign files options dirName root_path pk sk now
      cs bs).1.bundle.manifest.files).Pairwise (fun a b => fileLe a b = true) ∧
    (∀ e, options.entry = some e →
      (publish hb gzipC mimeOf dalekSign files options dirName root_path pk sk now
        cs bs).1.bundle.manifest.entry = e) ∧
    (options.entry = Option.none →
      (autoEntry ((publish hb gzipC mimeOf dalekSign files options dirName root_path pk sk now
        cs bs).1.bundle.manifest.files)).isSome →
      (publish hb gzipC mimeOf dalekSign files options dirName root_path pk sk now
        cs bs).1.bundle.manifest.entry ∈
        ((publish hb gzipC mimeOf dalekSign files options dirName root_path pk sk now
          cs bs).1.bundle.manifest.files).map FileEntry.path) ∧
    (options.entry = Option.none →
      autoEntry ((publish hb gzipC mimeOf dalekSign files options dirName root_path pk sk now
        cs bs).1.bundle.manifest.files) = Option.none →
      (publish hb gzipC mimeOf dalekSign files options dirName root_path pk sk now
        cs bs).1.bundle.manifest.entry = strBytes "index.html") := by
  have hfb : (publish hb gzipC mimeOf dalekSign files options dirName root_path pk sk now
      cs bs).1.bundle.manifest.entry =
      (options.entry.orElse (fun _ => autoEntry
        ((publish hb gzipC mimeOf dalekSign files options dirName root_path pk sk now
          cs bs).1.bundle.manifest.files))).getD (strBytes "index.html") := rfl
  refine ⟨?_, ?_, ?_, ?_⟩
  · exact sortBy_pairwise fileLe fileLe_total fileLe_trans _
  · intro e he
    rw [hfb, he]
    rfl
  · intro h1 h2
    obtain ⟨c, hc⟩ := Option.isSome_iff_exists.mp h2
    have hentry : (publish hb gzipC mimeOf dalekSign files options dirName root_path pk sk now
        cs bs).1.bundle.manifest.entry = c := by
      rw [hfb, h1]
      simp only [Option.orElse]
      rw [hc]
      rfl
    rw [hentry]
    have hp := List.find?_some hc
    obtain ⟨f, hf, hfc⟩ := List.any_eq_true.mp hp
    exact List.mem_map.mpr ⟨f, hf, eq_of_beq hfc⟩
  · intro h1 h3
    rw [hfb, h1]
    simp only [Option.orElse]
    rw [h3]
    rfl

/-- Witness for C2 at a concrete two-file directory containing index.html:
the published manifest is sorted and its entry is a file path. -/
theorem c2_witness :
    (c2wOut.1.bundle.manifest.files).Pairwise (fun a b => fileLe a b = true) ∧
    c2wOut.1.bundle.manifest.entry ∈ (c2wOut.1.bundle.manifest.files).map FileEntry.path := by
  have h := c2_sorted_and_entry cHb id cMime cSign
    [(strBytes "style.css", strBytes "b"), (strBytes "index.html", strBytes "hi")]
    defaultOptions (strBytes "site") (strBytes "/site") zero32 one32 5 emptyCS emptyBS
  exact ⟨h.1, h.2.2.1 rfl (by decide)⟩

/-- Membership in the enumerated zip scan of diff. -/
theorem mem_diffIndices : ∀ (xs ys : List Hash) (k i : Nat),
    i ∈ diffIndices xs ys k ↔
      ∃ j, j < xs.length ∧ j < ys.length ∧ i = k + j ∧
        xs.getD j zero32 ≠ ys.getD j zero32
  | [], ys, k, i => by simp [diffIndices]
  | _ :: _, [], k, i => by simp [diffIndices]
  | x :: xs, y :: ys, k, i => by
    simp only [diffIndices]
    by_cases hxy : x = y
    · rw [if_pos hxy]
      constructor
      · intro h
        obtain ⟨j, h1, h2, h3, h4⟩ := (mem_diffIndices xs ys (k + 1) i).mp h
        exact ⟨j + 1, by simpa using h1, by simpa using h2, by omega, by simpa using h4⟩
      · rintro ⟨j, h1, h2, h3, h4⟩
        cases j with
        | zero =>
          rw [List.getD_cons_zero, List.getD_cons_zero] at h4
          exact absurd hxy h4
        | succ j2 =>
          refine (mem_diffIndices xs ys (k + 1) i).mpr ⟨j2, ?_, ?_, by omega, ?_⟩
          · simpa using h1
          · simpa using h2
          · simpa using h4
    · rw [if_neg hxy]
      constructor
      · intro h
        rcases List.mem_cons.mp h with rfl | h2
        · exact ⟨0, by simp, by simp, by omega, by simpa using hxy⟩
        · obtain ⟨j, h1, h2', h3, h4⟩ := (mem_diffIndices xs ys (k + 1) i).mp h2
          exact ⟨j + 1, by simpa using h1, by simpa using h2', by omega, by simpa using h4⟩
      · rintro ⟨j, h1, h2, h3, h4⟩
        cases j with
        | zero => exact List.mem_cons.mpr (Or.inl (by omega))
        | succ j2 =>
          refine List.mem_cons.mpr (Or.inr ((mem_diffIndices xs ys (k + 1) i).mpr
            ⟨j2, ?_, ?_, by omega, ?_⟩))
          · simpa using h1
          · simpa using h2
          · simpa using h4

/-- C4 counterexample: with the receiver holding two leaves and the
argument one, the leaf counts differ, yet diff reports nothing — in
particular not the index 1 the claim requires for every index from
min(2, 1) up to max(2, 1). -/
theorem c4_longer_receiver_counterexample :
    1 ∉ (MerkleTree.new cHb [zero32, one32]).diff (MerkleTree.new cHb [zero32]) ∧
    (MerkleTree.new cHb [zero32, one32]).leaves.length = 2 ∧
    (MerkleTree.new cHb [zero32]).leaves.length = 1 := by decide

/-- C4 amended: diff(A, B) contains exactly the indices below both leaf
counts where the leaves differ, plus every index from A's leaf count up to
B's — the trailing block appears only when the receiver A is the shorter
tree; when A is longer, indices beyond B's length are never reported. -/
theorem c4_diff_mem (a b : MerkleTree) (i : Nat) :
    i ∈ a.diff b ↔
      ((i < a.leaves.length ∧ i < b.leaves.length ∧
        a.leaves.getD i zero32 ≠ b.leaves.getD i zero32) ∨
       (a.leaves.length ≤ i ∧ i < b.leaves.length)) := by
  unfold MerkleTree.diff
  rw [List.mem_append, mem_diffIndices]
  constructor
  · rintro (⟨j, h1, h2, h3, h4⟩ | h)
    · left
      have hij : i = j := by omega
      subst hij
      exact ⟨h1, h2, h4⟩
    · right
      by_cases hlen : a.leaves.length < b.leaves.length
      · rw [if_pos hlen] at h
        have h2 := List.mem_range'_1.mp h
        omega
      · rw [if_neg hlen] at h
        simp at h
  · rintro (⟨h1, h2, h3⟩ | ⟨h1, h2⟩)
    · exact Or.inl ⟨i, h1, h2, by omega, h3⟩
    · refine Or.inr ?_
      rw [if_pos (by omega)]
      exact List.mem_range'_1.mpr ⟨h1, by omega⟩

/-- Each pairing halves the level size, rounding down. -/
theorem pairUp_length (hb : Bytes → Bytes) : ∀ l : List Hash,
    (pairUp hb l).length = l.length / 2
  | [] => rfl
  | [_] => by simp [pairUp]
  | _ :: _ :: rest => by
    simp [pairUp, pairUp_length hb rest]
    omega

/-- The fuel of the node builder is irrelevant once it covers the level
size. -/
theorem buildNodesF_congr (hb : Bytes → Bytes) : ∀ (f1 f2 : Nat) (cur : List Hash),
    cur.length ≤ f1 → cur.length ≤ f2 → buildNodesF hb f1 cur = buildNodesF hb f2 cur
  | 0, f2, cur, h1, _ => by
    have hc : cur = [] := List.eq_nil_of_length_eq_zero (by omega)
    subst hc
    cases f2 <;> simp [buildNodesF]
  | _ + 1, 0, cur, _, h2 => by
    have hc : cur = [] := List.eq_nil_of_length_eq_zero (by omega)
    subst hc
    simp [buildNodesF]
  | f1 + 1, f2 + 1, cur, h1, h2 => by
    simp only [buildNodesF]
    by_cases hc : cur.length ≤ 1
    · rw [if_pos hc, if_pos hc]
    · rw [if_neg hc, if_neg hc]
      have hp := pairUp_length hb cur
      rw [buildNodesF_congr hb f1 f2 (pairUp hb cur) (by omega) (by omega)]

/-- The recurrence of the node-building loop: a level of size at most one is
final, a larger level is followed by the nodes built from its pairing. -/
theorem buildNodes_eq (hb : Bytes → Bytes) (cur : List Hash) :
    buildNodes hb cur =
      if cur.length ≤ 1 then cur else cur ++ buildNodes hb (pairUp hb cur) := by
  unfold buildNodes
  by_cases hc : cur.length ≤ 1
  · rw [if_pos hc]
    have h01 : cur.length = 0 ∨ cur.length = 1 := by omega
    rcases h01 with h | h <;> rw [h] <;> simp [buildNodesF, hc]
  · rw [if_neg hc]
    obtain ⟨m, hm⟩ : ∃ m, cur.length = m + 1 := ⟨cur.length - 1, by omega⟩
    rw [hm]
    simp only [buildNodesF]
    rw [if_neg (by omega : ¬cur.length ≤ 1)]
    congr 1
    apply buildNodesF_congr
    · rw [pairUp_length]
      omega
    · exact Nat.le_refl _

/-- The node vector of a non-empty level is non-empty. -/
theorem buildNodes_ne_nil (hb : Bytes → Bytes) (cur : List Hash) (h : cur ≠ []) :
    buildNodes hb cur ≠ [] := by
  rw [buildNodes_eq]
  by_cases hc : cur.length ≤ 1
  · rw [if_pos hc]
    exact h
  · rw [if_neg hc]
    simp [h]

/-- The defaulted last element of an append with non-empty right part. -/
theorem lastD_append : ∀ (l1 l2 : List Hash) (d : Hash), l2 ≠ [] →
    lastD (l1 ++ l2) d = lastD l2 d
  | [], _, _, _ => by simp
  | a :: t, l2, d, h => by
    have hrec := lastD_append t l2 d h
    cases hF : t ++ l2 with
    | nil => exact absurd (List.append_eq_nil.mp hF).2 h
    | cons y rest =>
      rw [List.cons_append, hF]
      show lastD (y :: rest) d = lastD l2 d
      rw [← hF]
      exact hrec

/-- Defaulted indexing past a left part lands in the right part. -/
theorem getD_append_add : ∀ (l1 l2 : List Hash) (n : Nat) (d : Hash),
    (l1 ++ l2).getD (l1.length + n) d = l2.getD n d
  | [], _, _, _ => by simp
  | a :: t, l2, n, d => by
    have he : (a :: t).length + n = (t.length + n) + 1 := by
      simp only [List.length_cons]
      omega
    rw [List.cons_append, he, List.getD_cons_succ]
    exact getD_append_add t l2 n d

/-- Defaulted indexing inside the left part of an append. -/
theorem getD_append_lt : ∀ (l1 l2 : List Hash) (n : Nat) (d : Hash), n < l1.length →
    (l1 ++ l2).getD n d = l1.getD n d
  | [], _, _, _, h => by simp at h
  | _ :: _, _, 0, _, _ => by simp
  | a :: t, l2, n + 1, d, h => by
    rw [List.cons_append, List.getD_cons_succ, List.getD_cons_succ]
    exact getD_append_lt t l2 n d (by simpa using h)

/-- The i-th paired node hashes the nodes at positions 2i and 2i+1. -/
theorem pairUp_getD (hb : Bytes → Bytes) : ∀ (l : List Hash) (i : Nat),
    2 * i + 1 < l.length →
    (pairUp hb l).getD i zero32 =
      hashPair hb (l.getD (2 * i) zero32) (l.getD (2 * i + 1) zero32)
  | [], i, h => by simp at h
  | [x], i, h => by simp at h
  | x :: y :: rest, i, h => by
    cases i with
    | zero => simp [pairUp]
    | succ i2 =>
      have hr := pairUp_getD hb rest i2 (by simp at h; omega)
      have g1 : (x :: y :: rest).getD (2 * (i2 + 1)) zero32 = rest.getD (2 * i2) zero32 := by
        have he : 2 * (i2 + 1) = 2 * i2 + 1 + 1 := by ring
        rw [he, List.getD_cons_succ, List.getD_cons_succ]
      have g2 : (x :: y :: rest).getD (2 * (i2 + 1) + 1) zero32 =
          rest.getD (2 * i2 + 1) zero32 := by
        have he : 2 * (i2 + 1) + 1 = 2 * i2 + 1 + 1 + 1 := by ring
        rw [he, List.getD_cons_succ, List.getD_cons_succ]
      calc (pairUp hb (x :: y :: rest)).getD (i2 + 1) zero32
          = (pairUp hb rest).getD i2 zero32 := by simp [pairUp]
        _ = hashPair hb (rest.getD (2 * i2) zero32) (rest.getD (2 * i2 + 1) zero32) := hr
        _ = hashPair hb ((x :: y :: rest).getD (2 * (i2 + 1)) zero32)
              ((x :: y :: rest).getD (2 * (i2 + 1) + 1) zero32) := by rw [g1, g2]

/-- A level of size at most one yields no siblings, with any fuel. -/
theorem getProofLoop_small : ∀ (fuel : Nat) (nodes : List Hash) (idx start size : Nat),
    size ≤ 1 → getProofLoop fuel nodes idx start size = []
  | 0, _, _, _, _, _ => rfl
  | _ + 1, _, _, _, _, h => by simp [getProofLoop, h]

/-- The fuel of the sibling-collecting loop is irrelevant once it covers the
level size. -/
theorem getProofLoop_congr : ∀ (f1 f2 : Nat) (nodes : List Hash) (idx start size : Nat),
    size ≤ f1 → size ≤ f2 →
    getProofLoop f1 nodes idx start size = getProofLoop f2 nodes idx start size
  | 0, f2, nodes, idx, start, size, h1, _ => by
    have hz : size = 0 := by omega
    subst hz
    cases f2 <;> simp [getProofLoop]
  | _ + 1, 0, nodes, idx, start, size, _, h2 => by
    have hz : size = 0 := by omega
    subst hz
    simp [getProofLoop]
  | f1 + 1, f2 + 1, nodes, idx, start, size, h1, h2 => by
    simp only [getProofLoop]
    by_cases hs : size ≤ 1
    · rw [if_pos hs, if_pos hs]
    · rw [if_neg hs, if_neg hs]
      rw [getProofLoop_congr f1 f2 nodes (idx / 2) (start + size) (size / 2)
        (by omega) (by omega)]

/-- One unfolding of the sibling-collecting loop at a level of size at least
two. -/
theorem getProofLoop_unfold (fuel : Nat) (nodes : List Hash) (idx start size : Nat)
    (h2 : 2 ≤ size) (hf : size ≤ fuel) :
    getProofLoop fuel nodes idx start size =
      (if start + (if idx % 2 = 0 then idx + 1 else idx - 1) < nodes.length then
        nodes.getD (start + (if idx % 2 = 0 then idx + 1 else idx - 1)) zero32 ::
          getProofLoop (size / 2) nodes (idx / 2) (start + size) (size / 2)
       else getProofLoop (size / 2) nodes (idx / 2) (start + size) (size / 2)) := by
  obtain ⟨f, rfl⟩ : ∃ f, fuel = f + 1 := ⟨fuel - 1, by omega⟩
  simp only [getProofLoop]
  rw [if_neg (by omega : ¬size ≤ 1)]
  rw [getProofLoop_congr f (size / 2) nodes (idx / 2) (start + size) (size / 2)
    (by omega) (Nat.le_refl _)]

/-- The verification fold over the siblings collected for a leaf of a
power-of-two level reproduces the last node built from that level, wherever
the level's node block sits inside the flat vector. -/
theorem fold_root (hb : Bytes → Bytes) : ∀ (k : Nat) (cur pre : List Hash) (idx : Nat),
    cur.length = 2 ^ k → idx < cur.length →
    (List.foldl (proofStep hb) (cur.getD idx zero32, idx)
      (getProofLoop cur.length (pre ++ buildNodes hb cur) idx pre.length cur.length)).1
      = lastD (buildNodes hb cur) zero32 := by
  intro k
  induction k with
  | zero =>
    intro cur pre idx hlen hidx
    obtain ⟨x, rfl⟩ := List.length_eq_one.mp (by simpa using hlen)
    have hidx0 : idx = 0 := by
      simp at hidx
      omega
    subst hidx0
    rw [getProofLoop_small _ _ _ _ _ (by simp)]
    rw [buildNodes_eq, if_pos (by simp)]
    simp [lastD]
  | succ k ih =>
    intro cur pre idx hlen hidx
    have hk : 0 < 2 ^ k := by positivity
    have hlen2 : cur.length = 2 * 2 ^ k := by
      rw [hlen]
      ring
    have h2le : 2 ≤ cur.length := by omega
    have hbn : buildNodes hb cur = cur ++ buildNodes hb (pairUp hb cur) := by
      rw [buildNodes_eq, if_neg (by omega)]
    have hpl : (pairUp hb cur).length = 2 ^ k := by
      rw [pairUp_length]
      omega
    have hpne : pairUp hb cur ≠ [] := by
      intro hnil
      rw [hnil] at hpl
      simp at hpl
      omega
    have hbne : buildNodes hb (pairUp hb cur) ≠ [] := buildNodes_ne_nil hb _ hpne
    have hsib : (if idx % 2 = 0 then idx + 1 else idx - 1) < cur.length := by
      by_cases hp : idx % 2 = 0 <;> simp [hp] <;> omega
    rw [getProofLoop_unfold cur.length _ idx pre.length cur.length h2le (Nat.le_refl _)]
    have hguard : pre.length + (if idx % 2 = 0 then idx + 1 else idx - 1) <
        (pre ++ buildNodes hb cur).length := by
      rw [List.length_append, hbn, List.length_append]
      omega
    rw [if_pos hguard]
    have hnode : (pre ++ buildNodes hb cur).getD
        (pre.length + (if idx % 2 = 0 then idx + 1 else idx - 1)) zero32 =
        cur.getD (if idx % 2 = 0 then idx + 1 else idx - 1) zero32 := by
      rw [getD_append_add, hbn, getD_append_lt _ _ _ _ hsib]
    rw [hnode, List.foldl_cons]
    have hstep : proofStep hb (cur.getD idx zero32, idx)
        (cur.getD (if idx % 2 = 0 then idx + 1 else idx - 1) zero32) =
        ((pairUp hb cur).getD (idx / 2) zero32, idx / 2) := by
      unfold proofStep
      by_cases hp : idx % 2 = 0
      · simp only [hp, if_pos rfl, if_true]
        rw [pairUp_getD hb cur (idx / 2) (by omega)]
        have e1 : 2 * (idx / 2) = idx := by omega
        have e2 : 2 * (idx / 2) + 1 = idx + 1 := by omega
        rw [e2, e1]
      · simp only [hp, if_neg hp, if_false]
        rw [pairUp_getD hb cur (idx / 2) (by omega)]
        have e1 : 2 * (idx / 2) = idx - 1 := by omega
        have e2 : 2 * (idx / 2) + 1 = idx := by omega
        rw [e2, e1]
    rw [hstep]
    have hassoc : pre ++ buildNodes hb cur = (pre ++ cur) ++ buildNodes hb (pairUp hb cur) := by
      rw [hbn, List.append_assoc]
    have hstart : pre.length + cur.length = (pre ++ cur).length :=
      (List.length_append pre cur).symm
    have hsize : cur.length / 2 = (pairUp hb cur).length := (pairUp_length hb cur).symm
    rw [hassoc, hstart, hsize]
    rw [ih (pairUp hb cur) (pre ++ cur) (idx / 2) hpl (by omega)]
    rw [hbn, lastD_append _ _ _ hbne]

/-- The fuelled next power of two is at least its input and is a power of
two. -/
theorem nextPow2F_spec : ∀ (fuel n : Nat), n ≤ fuel →
    n ≤ nextPow2F fuel n ∧ ∃ k, nextPow2F fuel n = 2 ^ k
  | 0, n, h => ⟨by simp [nextPow2F]; omega, 0, rfl⟩
  | fuel + 1, n, h => by
    simp only [nextPow2F]
    by_cases h1 : n ≤ 1
    · rw [if_pos h1]
      exact ⟨h1, 0, rfl⟩
    · rw [if_neg h1]
      obtain ⟨hle2, k, hk⟩ := nextPow2F_spec fuel ((n + 1) / 2) (by omega)
      refine ⟨by omega, k + 1, ?_⟩
      rw [hk]
      ring

/-- next_power_of_two is at least its input. -/
theorem le_nextPow2 (n : Nat) : n ≤ nextPow2 n := (nextPow2F_spec n n (Nat.le_refl n)).1

/-- next_power_of_two is a power of two. -/
theorem nextPow2_pow (n : Nat) : ∃ k, nextPow2 n = 2 ^ k :=
  (nextPow2F_spec n n (Nat.le_refl n)).2

/-- C9: for a tree built from a non-empty leaf list and any in-range index,
get_proof returns a proof and verify_proof accepts it: the fold over the
collected siblings, choosing the hashing side by the low bit of the running
index, reproduces the stored root. -/
theorem c9_get_proof_verifies (hb : Bytes → Bytes) (leaves : List Hash) (i : Nat)
    (hne : leaves ≠ []) (hi : i < leaves.length) :
    ∃ p, (MerkleTree.new hb leaves).get_proof i = some p ∧
      MerkleTree.verify_proof hb p = true := by
  have hem : leaves.isEmpty = false := by
    cases leaves with
    | nil => exact absurd rfl hne
    | cons a t => rfl
  have ht : MerkleTree.new hb leaves = ⟨leaves,
      buildNodes hb (leaves ++ List.replicate (nextPow2 leaves.length - leaves.length) zero32)⟩ := by
    unfold MerkleTree.new
    rw [if_neg (by simp [hem])]
  obtain ⟨k, hk⟩ := nextPow2_pow leaves.length
  have hle := le_nextPow2 leaves.length
  have hplen : (leaves ++ List.replicate (nextPow2 leaves.length - leaves.length) zero32).length
      = nextPow2 leaves.length := by
    rw [List.length_append, List.length_replicate]
    omega
  have hmain := fold_root hb k
    (leaves ++ List.replicate (nextPow2 leaves.length - leaves.length) zero32) [] i
    (by rw [hplen, hk]) (by rw [hplen]; omega)
  simp only [List.nil_append, List.length_nil] at hmain
  rw [hplen] at hmain
  have hinit : (leaves ++ List.replicate (nextPow2 leaves.length - leaves.length) zero32).getD
      i zero32 = leaves.getD i zero32 := getD_append_lt _ _ _ _ hi
  rw [hinit] at hmain
  rw [ht]
  unfold MerkleTree.get_proof
  dsimp only
  rw [if_pos hi]
  refine ⟨_, rfl, ?_⟩
  unfold MerkleTree.verify_proof MerkleTree.root
  dsimp only
  rw [hmain]
  simp

/-- Witness for C9 at a concrete three-leaf tree and index 1. -/
theorem c9_witness :
    ∃ p, (MerkleTree.new cHb [zero32, one32, zero32]).get_proof 1 = some p ∧
      MerkleTree.verify_proof cHb p = true :=
  c9_get_proof_verifies cHb [zero32, one32, zero32] 1 (by decide) (by decide)

end Grab
